import Mathlib

/-!
# Verification of the bulk market-data fetch-and-cache layer

Shallow embedding of `src/backend/yf_utils.py` (ticker normalization, the
bulk quote cache `fetch_bulk_prices`, the fallback price table, the single
quote projection `fetch_single_price`, and the history fetcher
`fetch_history_with_timeout`).

Modelling conventions:
* Python floats are modelled as exact rationals (`ℚ`); `round(x, 2)` is
  modelled as `round2` (round half towards the nearest multiple of `1/100`;
  Python uses banker's rounding on binary floats, which agrees except at
  exact half-cent ties, and no statement below depends on tie direction).
* `datetime.now()` is an abstract clock, a `Nat` passed in as `now`;
  cache-timestamp arithmetic is in whole seconds.
* The upstream provider (`yf.Ticker(...).history(period="5d")`) is an
  oracle `upstream : String → HistOutcome` keyed by the yfinance symbol:
  `.err` models a raised exception, `.ok closes` models a reply whose
  `Close` column after `dropna()` is `closes` (chronologically ascending),
  so `.ok []` models an empty history.
* The `ThreadPoolExecutor` fan-out with `as_completed(..., timeout=...)` is
  modelled by a predicate `done : String → Bool` telling which submitted
  per-ticker futures complete before the overall timeout; completed futures
  are processed, the rest are abandoned (their results never written back).
* Python dicts that are only ever written via `d[k] = v` and read via
  `k in d` / `d[k]` / `d.get(k)` are modelled as association lists with
  overwrite-on-insert (`PriceMap`).
-/

/-- One scan of Python's `str.replace(".NS", "")`: remove every
(left-to-right, non-overlapping) occurrence of the three characters
`.NS` from a character list. -/
def stripNS : List Char → List Char
  | [] => []
  | [c] => [c]
  | [c, d] => [c, d]
  | c :: d :: e :: rest =>
    if c = '.' ∧ d = 'N' ∧ e = 'S' then stripNS rest
    else c :: stripNS (d :: e :: rest)

/-- Does the character list contain an occurrence of `.NS`? -/
def hasNS : List Char → Bool
  | [] => false
  | [_] => false
  | [_, _] => false
  | c :: d :: e :: rest =>
    if c = '.' ∧ d = 'N' ∧ e = 'S' then true else hasNS (d :: e :: rest)

/-- `ticker.upper().replace(".NS", "")` — the canonical key form used for
every cache and result-dict access in `yf_utils.py` (lines 54, 67, 107,
122, 132, 180).  `Char.toUpper` agrees with Python `str.upper` on the
ASCII ticker alphabet. -/
def canon (s : String) : String := ⟨stripNS (s.data.map Char.toUpper)⟩

/-- `get_yf_ticker` (yf_utils.py lines 24-29): convert a ticker to the
yfinance NSE symbol. -/
def get_yf_ticker (ticker : String) : String :=
  let tu := canon ticker
  if tu = "NIFTY50" then "^NSEI" else tu ++ ".NS"

/-- `CACHE_TTL_SECONDS = 60` (yf_utils.py line 21). -/
def CACHE_TTL_SECONDS : Nat := 60

/-- `DEFAULT_TIMEOUT = 10` (yf_utils.py line 16). -/
def DEFAULT_TIMEOUT : Nat := 10

/-- Python `round(x, 2)`: round to the nearest multiple of `1/100`. -/
def round2 (x : ℚ) : ℚ := ((round (x * 100) : ℤ) : ℚ) / 100

/-- The per-ticker price dict built by `fetch_single` /
`_get_fallback_prices`: keys `ticker`, `price`, `change`,
`change_percent`, `previous_close`, `timestamp`, `source`. -/
structure Quote where
  ticker : String
  price : ℚ
  change : ℚ
  change_percent : ℚ
  previous_close : ℚ
  timestamp : Nat
  source : String
deriving DecidableEq, Repr

/-- A string-keyed dict of quotes (`_price_cache`, `results`,
`cached_results`, the fallback dict, and the returned mapping). -/
abbrev PriceMap := List (String × Quote)

/-- Dict lookup `m[k]` / `m.get(k)`. -/
def PriceMap.find (m : PriceMap) (k : String) : Option Quote :=
  (m.find? (fun p => p.1 == k)).map (fun p => p.2)

/-- Dict assignment `m[k] = v` (overwrite semantics). -/
def PriceMap.insert (m : PriceMap) (k : String) (v : Quote) : PriceMap :=
  (k, v) :: m.filter (fun p => p.1 != k)

/-- The module-level mutable state of `yf_utils.py`: `_price_cache` and
`_cache_timestamp` (lines 19-20). -/
structure CacheState where
  cache : PriceMap
  timestamp : Option Nat
deriving DecidableEq, Repr

/-- `_is_cache_valid` (yf_utils.py lines 32-38). -/
def is_cache_valid (ts : Option Nat) (now : Nat) : Bool :=
  match ts with
  | none => false
  | some t => now - t < CACHE_TTL_SECONDS

/-- Outcome of one upstream `yf.Ticker(sym).history(period="5d")` call. -/
inductive HistOutcome where
  | err : HistOutcome
  | ok : List ℚ → HistOutcome
deriving DecidableEq, Repr

/-- Body of `fetch_single` (yf_utils.py lines 65-98) expressed on the
canonical key `tu`; the yfinance symbol is recomputed from `tu` exactly as
`get_yf_ticker` does (the source recomputes `ticker_upper` inside
`get_yf_ticker`, so the two agree — see `fetch_single_eq_fetchSingleC`). -/
def fetchSingleC (now : Nat) (upstream : String → HistOutcome) (tu : String) : Option Quote :=
  let yft := if tu = "NIFTY50" then "^NSEI" else tu ++ ".NS"
  match upstream yft with
  | .err => none
  | .ok closes =>
    match closes.getLast? with
    | none => none
    | some current =>
      let previous := (closes.dropLast.getLast?).getD current
      let change := current - previous
      let pct := if previous = 0 then 0 else change / previous * 100
      some { ticker := tu, price := round2 current, change := round2 change,
             change_percent := round2 pct, previous_close := round2 previous,
             timestamp := now, source := "live" }

/-- `fetch_single` (yf_utils.py lines 65-98): canonicalize the ticker,
fetch its 5-day history, take the last close as `price` and the
second-to-last (if any, else the last) as `previous_close`, derive
`change` / `change_percent`, round everything to 2 decimals; any upstream
exception or empty history yields `None`. -/
def fetch_single (now : Nat) (upstream : String → HistOutcome) (ticker : String) : Option Quote :=
  fetchSingleC now upstream (canon ticker)

/-- The `fallback_prices` dict literal of `_get_fallback_prices`
(yf_utils.py lines 170-176). -/
def fallback_prices : List (String × ℚ) :=
  [("RELIANCE", 1450), ("TCS", 3800), ("HDFCBANK", 1650), ("INFY", 1550),
   ("ICICIBANK", 1100), ("HINDUNILVR", 2400), ("SBIN", 780), ("BHARTIARTL", 1650),
   ("ITC", 470), ("KOTAKBANK", 1750), ("WIPRO", 480), ("TATAMOTORS", 980),
   ("MARUTI", 12500), ("SUNPHARMA", 1850), ("LT", 3600), ("BEL", 320),
   ("COALINDIA", 480), ("NIFTY50", 22500), ("AXISBANK", 1150)]

/-- `ticker_upper in fallback_prices` / `fallback_prices[ticker_upper]`:
the static table lookup. -/
def fallback_table (t : String) : Option ℚ :=
  (fallback_prices.find? (fun p => p.1 == t)).map (fun p => p.2)

/-- The quote dict built from a fallback-table price
(yf_utils.py lines 184-192). -/
def mkFallbackQuote (tu : String) (p : ℚ) (now : Nat) : Quote :=
  { ticker := tu, price := p, change := 0, change_percent := 0,
    previous_close := p, timestamp := now, source := "fallback" }

/-- Common shape of the dict-building loops in `yf_utils.py`: fold over a
ticker list, and for each ticker write `f (canon t)` (when present) into
the accumulator dict under the canonical key.  Instantiated with
`f := st.cache.find` for the `cached_results` loop (lines 53-58), with
`f := fetchSingleC now upstream` for the `as_completed` result loop
(lines 105-114, over the futures that finished in time), and with the
cache-then-table chain for `_get_fallback_prices` (lines 179-192). -/
def writeFold (f : String → Option Quote) (acc : PriceMap) (ts : List String) : PriceMap :=
  ts.foldl (fun acc t =>
    match f (canon t) with
    | some v => acc.insert (canon t) v
    | none => acc) acc

/-- Per-key value of the `_get_fallback_prices` chain: the (current)
cache entry if present, else the static table entry, else nothing. -/
def fallbackVal (cache : PriceMap) (now : Nat) (k : String) : Option Quote :=
  match cache.find k with
  | some q => some q
  | none => (fallback_table k).map (fun p => mkFallbackQuote k p now)

/-- `_get_fallback_prices` (yf_utils.py lines 166-194). -/
def get_fallback_prices (cache : PriceMap) (now : Nat) (tickers : List String) : PriceMap :=
  writeFold (fallbackVal cache now) [] tickers

/-- Everything observable about one `fetch_bulk_prices` call: the returned
mapping, the module state after the call, the tickers submitted to the
executor for a live fetch, and whether the call returned through the
all-cached short-circuit at lines 50-61. -/
structure BulkResult where
  result : PriceMap
  state : CacheState
  upstreamCalls : List String
  shortCircuit : Bool
deriving DecidableEq, Repr

/-- `fetch_bulk_prices` (yf_utils.py lines 41-123).
`done t` tells whether the future submitted for raw ticker `t` completed
before the overall `as_completed` timeout (futures for the same ticker
string run the same deterministic fetch, so one bit per ticker suffices);
abandoned futures contribute nothing to `results` or the cache. -/
def fetch_bulk_prices (tickers : List String) (upstream : String → HistOutcome)
    (done : String → Bool) (now : Nat) (st : CacheState) : BulkResult :=
  if is_cache_valid st.timestamp now
      && tickers.all (fun t => (st.cache.find (canon t)).isSome) then
    { result := writeFold (fun k => st.cache.find k) [] tickers
      state := st
      upstreamCalls := []
      shortCircuit := true }
  else
    let processed := tickers.filter done
    let results := writeFold (fetchSingleC now upstream) [] processed
    let cache1 := writeFold (fetchSingleC now upstream) st.cache processed
    let ts1 := if results.isEmpty then st.timestamp else some now
    let missing := tickers.filter (fun t => (results.find (canon t)).isNone)
    { result := results ++ get_fallback_prices cache1 now missing
      state := { cache := cache1, timestamp := ts1 }
      upstreamCalls := tickers
      shortCircuit := false }

/-- `fetch_single_price` (yf_utils.py lines 126-133): the bulk call on the
singleton batch, projected to the canonical key. -/
def fetch_single_price (ticker : String) (upstream : String → HistOutcome)
    (done : String → Bool) (now : Nat) (st : CacheState) : Option Quote :=
  (fetch_bulk_prices [ticker] upstream done now st).result.find (canon ticker)

/-- Outcome of the single `yf.download(tickers=..., period=...)` future in
`fetch_history_with_timeout`: it raises, exceeds the timeout, or returns a
(date, close) series. -/
inductive DlOutcome where
  | err : DlOutcome
  | timedOut : DlOutcome
  | ok : List (Nat × ℚ) → DlOutcome
deriving DecidableEq, Repr

/-- `fetch_history_with_timeout` (yf_utils.py lines 136-163): one upstream
download keyed by symbol and period; `None` on exception, on timeout, and
on an empty frame; the data itself otherwise.  Total — every error path is
a `return None`, nothing propagates to the caller. -/
def fetch_history_with_timeout (dl : String → String → DlOutcome)
    (ticker : String) (period : String) : Option (List (Nat × ℚ)) :=
  let yft := get_yf_ticker ticker
  match dl yft period with
  | .err => none
  | .timedOut => none
  | .ok rows => if rows.isEmpty then none else some rows

/-- `clear_price_cache` (yf_utils.py lines 197-201). -/
def clear_price_cache : CacheState := { cache := [], timestamp := none }

/-! ## Wall-clock model of the refill (for the timeout bound)

`fetch_bulk_prices` runs its fan-out inside
`with concurrent.futures.ThreadPoolExecutor(max_workers=10) as executor:`.
Each submitted `fetch_single` call takes some duration (`⊤` = the upstream
never responds; threads running an opaque blocking call cannot be
cancelled). The `as_completed(..., timeout=timeout)` loop stops by the
deadline, but leaving the `with` block calls `executor.shutdown(wait=True)`,
which blocks until every submitted future — running or queued — has
finished executing. -/

/-- The instant at which the last submitted fetch finishes. -/
def all_tasks_done (durations : List (WithTop Nat)) : WithTop Nat :=
  durations.foldr max 0

/-- When `fetch_bulk_prices` returns, on the refill path: the
`as_completed` loop exits by `min timeout (all tasks done)`, after which
the `with`-block exit (`shutdown(wait=True)`) still blocks until
`all_tasks_done`. -/
def refill_return_time (durations : List (WithTop Nat)) (timeout : Nat) : WithTop Nat :=
  max (min (timeout : WithTop Nat) (all_tasks_done durations)) (all_tasks_done durations)

/-! ## Concrete scenario ingredients used by witnesses and counterexamples -/

/-- A stale cached quote whose provenance reads `live` (as every entry
ever written to `_price_cache` does — line 112 stores `fetch_single`
results only). -/
def staleQuote : Quote :=
  { ticker := "TCS", price := 3500, change := 0, change_percent := 0,
    previous_close := 3500, timestamp := 0, source := "live" }

/-- Upstream that raises for every symbol. -/
def upstreamErr : String → HistOutcome := fun _ => .err

/-- Upstream for the derived-fields counterexample: last close `100`,
second-to-last close `1/250` (= 0.004, which rounds to `0.00`). -/
def upstreamTiny : String → HistOutcome := fun _ => .ok [1/250, 100]

/-- Upstream for the close-selection counterexample: closes `1` then
`2.346`. -/
def upstreamFract : String → HistOutcome := fun _ => .ok [1, 2346/1000]

/-- Upstream returning a single close of `80`. -/
def upstreamOne : String → HistOutcome := fun _ => .ok [80]

/-- Upstream that raises exactly for symbol `TCS.NS` and otherwise returns
one close of `50`. -/
def upstreamErrTCS : String → HistOutcome :=
  fun x => if x = "TCS.NS" then .err else .ok [50]

/-- Like `upstreamErrTCS`, but the `TCS.NS` call returns an empty history
instead of raising. -/
def upstreamEmptyTCS : String → HistOutcome :=
  fun x => if x = "TCS.NS" then .ok [] else .ok [50]

/-- All futures complete in time. -/
def doneAll : String → Bool := fun _ => true

/-- A fresh, populated cache state for the short-circuit witness. -/
def freshState : CacheState := { cache := [("TCS", staleQuote)], timestamp := some 95 }

/-- A stale cache state holding one old `TCS` snapshot. -/
def staleState : CacheState := { cache := [("TCS", staleQuote)], timestamp := some 0 }

/-- History oracle used by witnesses: errors on every symbol and period. -/
def dlErr : String → String → DlOutcome := fun _ _ => .err

/-- The derived-fields invariant actually maintained by the code: the four
price fields of a snapshot are the 2-decimal roundings of one underlying
pair (raw price `rp`, raw previous close `rq`), with `change` and
`change_percent` computed from the raw pair *before* rounding (and the
percent guard testing the raw, not the rounded, previous close). -/
def QuoteOK (q : Quote) : Prop :=
  ∃ rp rq : ℚ, q.price = round2 rp ∧ q.previous_close = round2 rq ∧
    q.change = round2 (rp - rq) ∧
    q.change_percent = round2 (if rq = 0 then 0 else (rp - rq) / rq * 100)

/-! ## Dict lemmas -/

theorem find?_filter_ne (m : PriceMap) (k k' : String) (h : k ≠ k') :
    (m.filter (fun p => p.1 != k)).find? (fun p => p.1 == k')
      = m.find? (fun p => p.1 == k') := by
  induction m with
  | nil => rfl
  | cons p m ih =>
    by_cases hp : p.1 = k
    · rw [List.filter_cons_of_neg (by simp [hp]),
        List.find?_cons_of_neg _ (by simp [hp, h]), ih]
    · rw [List.filter_cons_of_pos (by simp [hp])]
      by_cases hp' : p.1 = k'
      · rw [List.find?_cons_of_pos _ (by simp [hp']),
          List.find?_cons_of_pos _ (by simp [hp'])]
      · rw [List.find?_cons_of_neg _ (by simp [hp']),
          List.find?_cons_of_neg _ (by simp [hp']), ih]

theorem PriceMap.find_insert (m : PriceMap) (k k' : String) (v : Quote) :
    (m.insert k v).find k' = if k = k' then some v else m.find k' := by
  unfold PriceMap.insert PriceMap.find
  by_cases h : k = k'
  · subst h
    rw [List.find?_cons_of_pos _ (by simp)]
    simp
  · rw [List.find?_cons_of_neg _ (by simp [h]), if_neg h,
      find?_filter_ne m k k' h]

theorem PriceMap.mem_of_find (m : PriceMap) (k : String) (q : Quote)
    (h : m.find k = some q) : (k, q) ∈ m := by
  unfold PriceMap.find at h
  rcases Option.map_eq_some'.1 h with ⟨p, hp, hq⟩
  have hmem := List.mem_of_find?_eq_some hp
  have hk : p.1 = k := by
    have := List.find?_some hp
    simpa using this
  cases p
  simp only at hq hk
  subst hq hk
  exact hmem

theorem PriceMap.find_append (m1 m2 : PriceMap) (k : String) :
    (m1 ++ m2).find k = (m1.find k).or (m2.find k) := by
  unfold PriceMap.find
  rw [List.find?_append]
  cases List.find? (fun p => p.1 == k) m1 <;> simp

theorem writeFold_find (f : String → Option Quote) (ts : List String)
    (acc : PriceMap) (k : String) :
    (writeFold f acc ts).find k =
      if (ts.any fun t => canon t == k) && (f k).isSome then f k
      else acc.find k := by
  induction ts generalizing acc with
  | nil => simp [writeFold]
  | cons t ts ih =>
    have hstep : writeFold f acc (t :: ts) = writeFold f
        (match f (canon t) with
         | some v => acc.insert (canon t) v
         | none => acc) ts := by
      simp [writeFold, List.foldl_cons]
    rw [hstep, ih]
    by_cases hk : canon t = k
    · subst hk
      cases hf : f (canon t) with
      | none => simp [hf]
      | some v => simp [hf, PriceMap.find_insert]
    · cases hf : f (canon t) with
      | none => simp [hf, hk]
      | some v => simp [hf, hk, PriceMap.find_insert]

theorem writeFold_mem (f : String → Option Quote) (ts : List String)
    (acc : PriceMap) (p : String × Quote) (hp : p ∈ writeFold f acc ts) :
    f p.1 = some p.2 ∨ p ∈ acc := by
  induction ts generalizing acc with
  | nil => exact Or.inr hp
  | cons t ts ih =>
    have hstep : writeFold f acc (t :: ts) = writeFold f
        (match f (canon t) with
         | some v => acc.insert (canon t) v
         | none => acc) ts := by
      simp [writeFold, List.foldl_cons]
    rw [hstep] at hp
    rcases ih _ hp with h | h
    · exact Or.inl h
    · cases hf : f (canon t) with
      | none =>
        rw [hf] at h
        exact Or.inr h
      | some v =>
        rw [hf] at h
        unfold PriceMap.insert at h
        rcases List.mem_cons.1 h with h | h
        · subst h
          exact Or.inl hf
        · exact Or.inr (List.mem_of_mem_filter h)

/-! ## Rounding lemmas -/

theorem abs_round2_sub_le (x : ℚ) : |round2 x - x| ≤ 1/200 := by
  have h : |x * 100 - (round (x * 100) : ℚ)| ≤ 1/2 := abs_sub_round (x * 100)
  unfold round2
  have e : ((round (x * 100) : ℤ) : ℚ)/100 - x = -((x * 100 - ((round (x * 100) : ℤ) : ℚ))/100) := by
    ring
  rw [e, abs_neg, abs_div, show |(100 : ℚ)| = 100 by norm_num]
  linarith

theorem round2_intCast (n : ℤ) : round2 (n : ℚ) = n := by
  rw [round2, show ((n : ℚ) * 100) = ((n * 100 : ℤ) : ℚ) by push_cast; ring,
    round_intCast]
  push_cast
  ring

theorem round2_zero : round2 0 = 0 := by
  rw [round2]
  norm_num

theorem fallback_table_round2 (k : String) (p : ℚ)
    (h : fallback_table k = some p) : round2 p = p := by
  unfold fallback_table at h
  rcases Option.map_eq_some'.1 h with ⟨pair, hfind, hp⟩
  have hmem := List.mem_of_find?_eq_some hfind
  subst hp
  unfold fallback_prices at hmem
  fin_cases hmem <;> (rw [round2, round_eq]; norm_num)

theorem QuoteOK_change_tol (q : Quote) (h : QuoteOK q) :
    |q.change - (q.price - q.previous_close)| ≤ 3/200 := by
  obtain ⟨rp, rq, hp, hq, hc, -⟩ := h
  rw [hp, hq, hc]
  have h1 := abs_round2_sub_le (rp - rq)
  have h2 := abs_round2_sub_le rp
  have h3 := abs_round2_sub_le rq
  have e : round2 (rp - rq) - (round2 rp - round2 rq)
      = (round2 (rp - rq) - (rp - rq)) - ((round2 rp - rp) - (round2 rq - rq)) := by
    ring
  rw [e]
  calc |(round2 (rp - rq) - (rp - rq)) - ((round2 rp - rp) - (round2 rq - rq))|
      ≤ |round2 (rp - rq) - (rp - rq)| + |(round2 rp - rp) - (round2 rq - rq)| :=
        abs_sub _ _
    _ ≤ |round2 (rp - rq) - (rp - rq)| + (|round2 rp - rp| + |round2 rq - rq|) := by
        have := abs_sub (round2 rp - rp) (round2 rq - rq)
        linarith
    _ ≤ 3/200 := by linarith

theorem fetchSingleC_ok (now : Nat) (u : String → HistOutcome) (tu : String)
    (q : Quote) (h : fetchSingleC now u tu = some q) : QuoteOK q := by
  simp only [fetchSingleC] at h
  split at h
  · cases h
  · split at h
    · cases h
    · cases h
      exact ⟨_, _, rfl, rfl, rfl, rfl⟩

theorem mkFallbackQuote_ok (tu : String) (p : ℚ) (now : Nat)
    (h : round2 p = p) : QuoteOK (mkFallbackQuote tu p now) := by
  refine ⟨p, p, h.symm, h.symm, ?_, ?_⟩
  · simp [mkFallbackQuote, round2_zero]
  · simp only [mkFallbackQuote]
    by_cases hp : p = 0
    · rw [if_pos hp, round2_zero]
    · rw [if_neg hp, show (p - p)/p * 100 = 0 by field_simp, round2_zero]

/-! ## Normalizer lemmas -/

theorem fetch_single_eq_fetchSingleC (now : Nat) (u : String → HistOutcome)
    (t : String) : fetch_single now u t = fetchSingleC now u (canon t) := rfl

theorem get_yf_ticker_eq (t : String) :
    get_yf_ticker t = if canon t = "NIFTY50" then "^NSEI" else canon t ++ ".NS" := rfl

theorem char_toNat_ofNat (n : Nat) (h : n.isValidChar) : (Char.ofNat n).toNat = n := by
  simp [Char.ofNat, h, Char.ofNatAux, Char.toNat, UInt32.toNat, BitVec.toNat_ofNatLt]

theorem toUpper_toUpper (c : Char) : c.toUpper.toUpper = c.toUpper := by
  unfold Char.toUpper
  by_cases h : c.toNat ≥ 97 ∧ c.toNat ≤ 122
  · have hv : (c.toNat - 32).isValidChar := Or.inl (by omega)
    have ht : (Char.ofNat (c.toNat - 32)).toNat = c.toNat - 32 :=
      char_toNat_ofNat _ hv
    simp only [if_pos h, ht]
    rw [if_neg (by omega)]
  · simp only [if_neg h]

theorem mem_stripNS (l : List Char) (c : Char) (h : c ∈ stripNS l) : c ∈ l := by
  induction l using stripNS.induct with
  | case1 => simp [stripNS] at h
  | case2 d => simpa [stripNS] using h
  | case3 d e => simpa [stripNS] using h
  | case4 d e f rest hc ih =>
    rw [stripNS, if_pos hc] at h
    simp only [List.mem_cons]
    exact Or.inr (Or.inr (Or.inr (ih h)))
  | case5 d e f rest hc ih =>
    rw [stripNS, if_neg hc] at h
    rcases List.mem_cons.1 h with h | h
    · simp [h]
    · simp only [List.mem_cons]
      rcases List.mem_cons.1 (ih h) with h | h
      · exact Or.inr (Or.inl h)
      · rcases List.mem_cons.1 h with h | h
        · exact Or.inr (Or.inr (Or.inl h))
        · exact Or.inr (Or.inr (Or.inr h))

theorem map_toUpper_canon_data (s : String) :
    (canon s).data.map Char.toUpper = (canon s).data := by
  have hfix : ∀ c ∈ (canon s).data, c.toUpper = c := by
    intro c hc
    have hmem : c ∈ s.data.map Char.toUpper := mem_stripNS _ _ hc
    rcases List.mem_map.1 hmem with ⟨d, -, hd⟩
    rw [← hd, toUpper_toUpper]
  calc (canon s).data.map Char.toUpper
      = (canon s).data.map id := List.map_congr_left hfix
    _ = (canon s).data := List.map_id _

theorem stripNS_append_NS (l : List Char) (h : hasNS l = false) :
    stripNS (l ++ ['.', 'N', 'S']) = l := by
  induction l using hasNS.induct with
  | case1 => simp [stripNS]
  | case2 c => simp [stripNS]
  | case3 c d => simp [stripNS]
  | case4 c d e rest hc => simp_all [hasNS]
  | case5 c d e rest hc ih =>
    rw [hasNS, if_neg hc] at h
    rw [List.cons_append, List.cons_append, List.cons_append, stripNS, if_neg hc]
    rw [← List.cons_append, ← List.cons_append, ih h]

theorem canon_get_yf_ticker (x : String) (h1 : canon x ≠ "NIFTY50")
    (h2 : hasNS (canon x).data = false) :
    canon (get_yf_ticker x) = canon x := by
  rw [get_yf_ticker_eq, if_neg h1]
  apply String.ext
  show stripNS ((canon x ++ ".NS").data.map Char.toUpper) = (canon x).data
  rw [String.data_append, List.map_append, map_toUpper_canon_data,
    show (".NS".data.map Char.toUpper) = ['.', 'N', 'S'] from rfl]
  exact stripNS_append_NS _ h2

/-! ## Branch characterizations of `fetch_bulk_prices` -/

theorem fetch_bulk_pos (tickers : List String) (u : String → HistOutcome)
    (done : String → Bool) (now : Nat) (st : CacheState)
    (h : (is_cache_valid st.timestamp now
      && tickers.all (fun t => (st.cache.find (canon t)).isSome)) = true) :
    fetch_bulk_prices tickers u done now st =
      { result := writeFold (fun k => st.cache.find k) [] tickers
        state := st
        upstreamCalls := []
        shortCircuit := true } := by
  unfold fetch_bulk_prices
  rw [if_pos h]

theorem fetch_bulk_neg (tickers : List String) (u : String → HistOutcome)
    (done : String → Bool) (now : Nat) (st : CacheState)
    (h : ¬((is_cache_valid st.timestamp now
      && tickers.all (fun t => (st.cache.find (canon t)).isSome)) = true)) :
    fetch_bulk_prices tickers u done now st =
      { result := writeFold (fetchSingleC now u) [] (tickers.filter done) ++
          get_fallback_prices
            (writeFold (fetchSingleC now u) st.cache (tickers.filter done)) now
            (tickers.filter (fun t =>
              ((writeFold (fetchSingleC now u) [] (tickers.filter done)).find (canon t)).isNone))
        state := { cache := writeFold (fetchSingleC now u) st.cache (tickers.filter done)
                   timestamp := if (writeFold (fetchSingleC now u) [] (tickers.filter done)).isEmpty
                     then st.timestamp else some now }
        upstreamCalls := tickers
        shortCircuit := false } := by
  unfold fetch_bulk_prices
  rw [if_neg h]

/-! ## Claims -/

/-- C1: a `fetch_bulk_prices` call short-circuits with the cached entries
and performs zero upstream fetches if and only if the cache timestamp is
within TTL of now AND every requested ticker (in canonical form) has an
entry in the cache; whenever that fails — even for a single missing
ticker — the whole batch is submitted for a full refill (one upstream
fetch per requested ticker, including those whose entries were fresh):
there is no partial-cache-hit fast path. -/
theorem C1_batch_short_circuit (tickers : List String) (u : String → HistOutcome)
    (done : String → Bool) (now : Nat) (st : CacheState) :
    ((fetch_bulk_prices tickers u done now st).shortCircuit = true ↔
      (is_cache_valid st.timestamp now = true ∧
        ∀ t ∈ tickers, (st.cache.find (canon t)).isSome = true)) ∧
    ((fetch_bulk_prices tickers u done now st).shortCircuit = true →
      (fetch_bulk_prices tickers u done now st).upstreamCalls = [] ∧
      ∀ t ∈ tickers,
        (fetch_bulk_prices tickers u done now st).result.find (canon t)
          = st.cache.find (canon t)) ∧
    ((fetch_bulk_prices tickers u done now st).shortCircuit = false →
      (fetch_bulk_prices tickers u done now st).upstreamCalls = tickers) := by
  by_cases hc : (is_cache_valid st.timestamp now
      && tickers.all (fun t => (st.cache.find (canon t)).isSome)) = true
  · rw [fetch_bulk_pos tickers u done now st hc]
    rw [Bool.and_eq_true, List.all_eq_true] at hc
    obtain ⟨hv, hall⟩ := hc
    refine ⟨?_, ?_, ?_⟩
    · exact ⟨fun _ => ⟨hv, fun t ht => hall t ht⟩, fun _ => rfl⟩
    · intro _
      refine ⟨rfl, fun t ht => ?_⟩
      rw [writeFold_find]
      have hany : (tickers.any fun t' => canon t' == canon t) = true :=
        List.any_eq_true.mpr ⟨t, ht, by simp⟩
      rw [hany, hall t ht]
      simp
    · intro h
      cases h
  · rw [fetch_bulk_neg tickers u done now st hc]
    refine ⟨?_, ?_, ?_⟩
    · constructor
      · intro h
        cases h
      · intro ⟨hv, hall⟩
        exact absurd (by
          rw [Bool.and_eq_true, List.all_eq_true]
          exact ⟨hv, fun t ht => hall t ht⟩) hc
    · intro h
      cases h
    · intro _
      rfl

/-- Witness for C1 at a concrete input: a fresh cache holding `TCS`
queried for `["TCS"]` short-circuits with no upstream submission, and the
same query against a stale cache is submitted in full. -/
theorem C1_batch_short_circuit_witness :
    (fetch_bulk_prices ["TCS"] upstreamErr doneAll 100 freshState).shortCircuit = true ∧
    (fetch_bulk_prices ["TCS"] upstreamErr doneAll 100 freshState).upstreamCalls = [] ∧
    (fetch_bulk_prices ["TCS"] upstreamErr doneAll 100 staleState).upstreamCalls = ["TCS"] := by
  have hfresh := C1_batch_short_circuit ["TCS"] upstreamErr doneAll 100 freshState
  have hstale := C1_batch_short_circuit ["TCS"] upstreamErr doneAll 100 staleState
  have hsc : (fetch_bulk_prices ["TCS"] upstreamErr doneAll 100 freshState).shortCircuit = true :=
    hfresh.1.mpr ⟨by decide, by decide⟩
  refine ⟨hsc, (hfresh.2.1 hsc).1, hstale.2.2 ?_⟩
  by_cases h : (fetch_bulk_prices ["TCS"] upstreamErr doneAll 100 staleState).shortCircuit = true
  · rcases hstale.1.mp h with ⟨hv, -⟩
    exact absurd hv (by decide)
  · exact Bool.not_eq_true _ ▸ h

/-- C2 (failed by the code): the claim demands that
`fetch_bulk_prices(tickers, timeout=N)` return within `N` plus a small
constant for *every* upstream behaviour.  In the code the fan-out runs
inside `with ThreadPoolExecutor(...)`: the `as_completed` loop does stop
at the deadline, but leaving the `with` block calls
`executor.shutdown(wait=True)`, which blocks until every submitted fetch
finishes.  Hence for every timeout `N` and every candidate slack `eps`
there is an upstream behaviour (a single fetch that never returns,
duration `⊤`) under which the call returns strictly later than `N + eps` —
indeed never. -/
theorem C2_no_timeout_bound (timeout eps : Nat) :
    ∃ durations : List (WithTop Nat),
      ((timeout + eps : Nat) : WithTop Nat) < refill_return_time durations timeout ∧
      refill_return_time durations timeout = ⊤ := by
  refine ⟨[⊤], ?_, ?_⟩
  · have htop : refill_return_time [⊤] timeout = ⊤ := by
      simp [refill_return_time, all_tasks_done]
    rw [htop]
    exact WithTop.coe_lt_top _
  · simp [refill_return_time, all_tasks_done]

/-- C3 (amended): during a refill, for a requested ticker all of whose
live fetches failed (errored, returned no usable close, or never finished
before the timeout), the returned entry is the previously cached snapshot
for that canonical key if one exists — returned *verbatim*, so its
provenance still reads `live`, it is not re-marked — else the fallback
table entry (provenance `fallback`), else the key is absent; and whenever
a live result exists for the key it takes precedence. -/
theorem C3_stale_then_table_then_absent (tickers : List String)
    (u : String → HistOutcome) (done : String → Bool) (now : Nat)
    (st : CacheState) (t : String) (ht : t ∈ tickers)
    (hrefill : (fetch_bulk_prices tickers u done now st).shortCircuit = false) :
    ((∀ t' ∈ tickers, done t' = true → canon t' = canon t →
        fetch_single now u t' = none) →
      (fetch_bulk_prices tickers u done now st).result.find (canon t)
        = match st.cache.find (canon t) with
          | some q => some q
          | none => (fallback_table (canon t)).map
              (fun p => mkFallbackQuote (canon t) p now)) ∧
    (∀ q : Quote, done t = true → fetch_single now u t = some q →
      (fetch_bulk_prices tickers u done now st).result.find (canon t) = some q) := by
  have hc : ¬((is_cache_valid st.timestamp now
      && tickers.all (fun t => (st.cache.find (canon t)).isSome)) = true) := by
    intro hcc
    rw [fetch_bulk_pos tickers u done now st hcc] at hrefill
    cases hrefill
  rw [fetch_bulk_neg tickers u done now st hc]
  constructor
  · intro hfail
    have hlive : (writeFold (fetchSingleC now u) [] (tickers.filter done)).find (canon t)
        = none := by
      rw [writeFold_find]
      by_cases hany : ((tickers.filter done).any fun t' => canon t' == canon t) = true
      · rcases List.any_eq_true.mp hany with ⟨t', ht', hbeq⟩
        have hcanon : canon t' = canon t := by simpa using hbeq
        rcases List.mem_filter.mp ht' with ⟨htmem, hdone⟩
        have hnone : fetchSingleC now u (canon t) = none := by
          have hx := hfail t' htmem hdone hcanon
          rw [fetch_single_eq_fetchSingleC, hcanon] at hx
          exact hx
        rw [hnone]
        simp [PriceMap.find]
      · rw [Bool.not_eq_true] at hany
        rw [hany]
        simp [PriceMap.find]
    have hcache : (writeFold (fetchSingleC now u) st.cache (tickers.filter done)).find (canon t)
        = st.cache.find (canon t) := by
      rw [writeFold_find] at hlive ⊢
      by_cases hcond : (((tickers.filter done).any fun t' => canon t' == canon t)
          && (fetchSingleC now u (canon t)).isSome) = true
      · rw [if_pos hcond] at hlive
        rw [Bool.and_eq_true] at hcond
        have hsome := hcond.2
        rw [hlive] at hsome
        cases hsome
      · rw [if_neg hcond]
    rw [PriceMap.find_append, hlive, Option.none_or]
    unfold get_fallback_prices
    rw [writeFold_find]
    have hmiss : ((tickers.filter (fun t' =>
        ((writeFold (fetchSingleC now u) [] (tickers.filter done)).find (canon t')).isNone)).any
          fun t' => canon t' == canon t) = true := by
      apply List.any_eq_true.mpr
      refine ⟨t, List.mem_filter.mpr ⟨ht, ?_⟩, by simp⟩
      rw [hlive]
      rfl
    rw [hmiss]
    unfold fallbackVal
    rw [hcache]
    cases hcc : st.cache.find (canon t) with
    | some q => simp
    | none =>
      cases htb : fallback_table (canon t) with
      | none => simp [PriceMap.find]
      | some p => simp
  · intro q hdone hfq
    have hfc : fetchSingleC now u (canon t) = some q := by
      rw [fetch_single_eq_fetchSingleC] at hfq
      exact hfq
    rw [PriceMap.find_append, writeFold_find]
    have hany : ((tickers.filter done).any fun t' => canon t' == canon t) = true :=
      List.any_eq_true.mpr ⟨t, List.mem_filter.mpr ⟨ht, hdone⟩, by simp⟩
    rw [hany, hfc]
    simp

/-- Counterexample to C3 as stated: with a stale cache holding a `TCS`
snapshot whose provenance is `live` (the only kind of snapshot
`_price_cache` ever holds — line 112 stores live fetch results only), and
an upstream that raises, the batch returns that snapshot verbatim: its
provenance still reads `live`, contradicting "with its provenance marked
non-live". -/
theorem C3_provenance_counterexample :
    (fetch_bulk_prices ["TCS"] upstreamErr doneAll 100 staleState).result.find "TCS"
      = some staleQuote ∧ staleQuote.source = "live" := by
  decide

/-- Witness for C3 (amended) at a concrete input: the hypotheses hold for
the stale-cache/erroring-upstream scenario, and the chain returns the
cached snapshot. -/
theorem C3_stale_then_table_then_absent_witness :
    (fetch_bulk_prices ["TCS"] upstreamErr doneAll 100 staleState).result.find (canon "TCS")
      = match staleState.cache.find (canon "TCS") with
        | some q => some q
        | none => (fallback_table (canon "TCS")).map
            (fun p => mkFallbackQuote (canon "TCS") p 100) :=
  (C3_stale_then_table_then_absent ["TCS"] upstreamErr doneAll 100 staleState "TCS"
    (by decide) (by decide)).1 (by decide)

theorem staleQuote_ok : QuoteOK staleQuote := by
  refine ⟨3500, 3500, ?_, ?_, ?_, ?_⟩
  · have := round2_intCast 3500
    simp only [Int.cast_ofNat] at this
    exact (by exact_mod_cast this.symm)
  · have := round2_intCast 3500
    exact (by exact_mod_cast this.symm)
  · rw [show (3500 : ℚ) - 3500 = 0 by ring, round2_zero]
    rfl
  · rw [if_neg (by norm_num), show ((3500 : ℚ) - 3500) / 3500 * 100 = 0 by ring,
      round2_zero]
    rfl

/-- C4 (amended): assuming every snapshot already in the cache satisfies
the derived-fields invariant `QuoteOK` (an inductive invariant: the cache
is only ever filled with `fetch_single` outputs), every snapshot in any
mapping returned by `fetch_bulk_prices` — live, stale-cached, or fallback
alike — satisfies it, and consequently `change` agrees with
`price - previous_close` up to the 3/2-cent rounding tolerance.  The
as-stated claim fails because `change_percent` is derived from the
*pre-rounding* change and previous close (see the counterexample: the
stored `previous_close` can round to `0` while `change_percent` is huge);
for fallback-table snapshots `change = change_percent = 0` and
`previous_close = price` hold exactly. -/
theorem C4_derived_fields_invariant (tickers : List String)
    (u : String → HistOutcome) (done : String → Bool) (now : Nat)
    (st : CacheState) (hcache : ∀ p ∈ st.cache, QuoteOK p.2)
    (k : String) (q : Quote)
    (hfind : (fetch_bulk_prices tickers u done now st).result.find k = some q) :
    QuoteOK q ∧ |q.change - (q.price - q.previous_close)| ≤ 3/200 := by
  have hQOK : QuoteOK q := by
    by_cases hc : (is_cache_valid st.timestamp now
        && tickers.all (fun t => (st.cache.find (canon t)).isSome)) = true
    · rw [fetch_bulk_pos tickers u done now st hc] at hfind
      have hmem := PriceMap.mem_of_find _ _ _ hfind
      rcases writeFold_mem _ _ _ _ hmem with h | h
      · exact hcache _ (PriceMap.mem_of_find _ _ _ h)
      · cases h
    · rw [fetch_bulk_neg tickers u done now st hc] at hfind
      have hmem := PriceMap.mem_of_find _ _ _ hfind
      rcases List.mem_append.mp hmem with h | h
      · rcases writeFold_mem _ _ _ _ h with h2 | h2
        · exact fetchSingleC_ok now u k q h2
        · cases h2
      · unfold get_fallback_prices at h
        rcases writeFold_mem _ _ _ _ h with h2 | h2
        · unfold fallbackVal at h2
          cases hcc : (writeFold (fetchSingleC now u) st.cache (tickers.filter done)).find k with
          | some q' =>
            rw [hcc] at h2
            have hq : q' = q := by
              injection h2
            subst hq
            have hmem2 := PriceMap.mem_of_find _ _ _ hcc
            rcases writeFold_mem _ _ _ _ hmem2 with h3 | h3
            · exact fetchSingleC_ok now u k q' h3
            · exact hcache _ h3
          | none =>
            rw [hcc] at h2
            rcases Option.map_eq_some'.1 h2 with ⟨p, htable, hq⟩
            have hq2 : q = mkFallbackQuote k p now := hq.symm
            rw [hq2]
            exact mkFallbackQuote_ok k p now (fallback_table_round2 k p htable)
        · cases h2
  exact ⟨hQOK, QuoteOK_change_tol q hQOK⟩

/-- Counterexample to C4 as stated: closes `[1/250, 100]` (previous close
0.004, which rounds to 0.00) give a returned snapshot whose
`previous_close` field is `0` while `change_percent` is `2499900`, not
`0` — the percent is computed from the raw previous close before
rounding. -/
theorem C4_counterexample :
    ((fetch_bulk_prices ["TCS"] upstreamTiny doneAll 0 clear_price_cache).result.find
        "TCS").map Quote.previous_close = some 0 ∧
    ((fetch_bulk_prices ["TCS"] upstreamTiny doneAll 0 clear_price_cache).result.find
        "TCS").map Quote.change_percent ≠ some 0 := by
  have h1 : (fetch_bulk_prices ["TCS"] upstreamTiny doneAll 0 clear_price_cache).result.find
      "TCS" = fetchSingleC 0 upstreamTiny "TCS" := rfl
  have h2 : (fetchSingleC 0 upstreamTiny "TCS").map Quote.previous_close
      = some (round2 (1/250)) := rfl
  have h3 : (fetchSingleC 0 upstreamTiny "TCS").map Quote.change_percent
      = some (round2 (if (1/250 : ℚ) = 0 then 0 else (100 - 1/250) / (1/250) * 100)) := rfl
  constructor
  · rw [h1, h2, Option.some.injEq, round2, round_eq]
    norm_num
  · rw [h1, h3]
    simp only [ne_eq, Option.some.injEq]
    rw [if_neg (by norm_num), round2, round_eq]
    norm_num

/-- Witness for C4 (amended) at a concrete input: the cache invariant
holds for the one-entry stale cache, and the returned stale snapshot
satisfies the invariant and the tolerance bound. -/
theorem C4_derived_fields_invariant_witness :
    QuoteOK staleQuote ∧
      |staleQuote.change - (staleQuote.price - staleQuote.previous_close)| ≤ 3/200 :=
  C4_derived_fields_invariant ["TCS"] upstreamErr doneAll 100 staleState
    (by
      intro p hp
      simp only [staleState, List.mem_singleton] at hp
      subst hp
      exact staleQuote_ok)
    "TCS" staleQuote (by decide)

/-- C5: an exception from the upstream call for one ticker is caught
inside `fetch_single` and treated exactly as "no result for that ticker":
(a) the per-ticker fetch returns `None` when its upstream call raises, and
(b) a batch run against an upstream that raises for some symbol is
*indistinguishable* — same returned mapping, same cache state — from the
same batch run against an upstream that instead returns an empty history
for that symbol.  In particular the failing ticker proceeds to the
fallback chain, no other ticker is affected, and nothing propagates to
the caller (every path of the embedding is total). -/
theorem C5_exception_is_no_result (s : String) (u1 u2 : String → HistOutcome)
    (hagree : ∀ x, x ≠ s → u1 x = u2 x)
    (h1 : u1 s = HistOutcome.err) (h2 : u2 s = HistOutcome.ok []) :
    (∀ now t, get_yf_ticker t = s → fetch_single now u1 t = none) ∧
    (∀ tickers done now st,
      fetch_bulk_prices tickers u1 done now st
        = fetch_bulk_prices tickers u2 done now st) := by
  have hfc : ∀ now tu, fetchSingleC now u1 tu = fetchSingleC now u2 tu := by
    intro now tu
    simp only [fetchSingleC]
    by_cases hs : (if tu = "NIFTY50" then "^NSEI" else tu ++ ".NS") = s
    · rw [hs, h1, h2]
      rfl
    · rw [hagree _ hs]
  have hfs : ∀ now t, get_yf_ticker t = s → fetch_single now u1 t = none := by
    intro now t hgy
    rw [fetch_single_eq_fetchSingleC]
    simp only [fetchSingleC]
    rw [show (if canon t = "NIFTY50" then "^NSEI" else canon t ++ ".NS") = s from by
      rw [← get_yf_ticker_eq]
      exact hgy]
    rw [h1]
  refine ⟨hfs, ?_⟩
  intro tickers done now st
  have hfun : fetchSingleC now u1 = fetchSingleC now u2 := funext (hfc now)
  unfold fetch_bulk_prices
  rw [hfun]

/-- Witness for C5 at a concrete input: an upstream that raises exactly
for `TCS.NS` versus one that returns an empty history there: the single
fetch yields `None` and the two-ticker batch results coincide exactly. -/
theorem C5_exception_is_no_result_witness :
    upstreamErrTCS "TCS.NS" = HistOutcome.err ∧
    upstreamEmptyTCS "TCS.NS" = HistOutcome.ok [] ∧
    fetch_single 0 upstreamErrTCS "TCS" = none ∧
    fetch_bulk_prices ["TCS", "INFY"] upstreamErrTCS doneAll 0 clear_price_cache
      = fetch_bulk_prices ["TCS", "INFY"] upstreamEmptyTCS doneAll 0 clear_price_cache := by
  have h := C5_exception_is_no_result "TCS.NS" upstreamErrTCS upstreamEmptyTCS
    (fun x hx => by simp [upstreamErrTCS, upstreamEmptyTCS, hx]) rfl rfl
  exact ⟨rfl, rfl, h.1 0 "TCS" (by decide), h.2 ["TCS", "INFY"] doneAll 0 clear_price_cache⟩

/-- Counterexample to C6 as stated: the domestic index alias itself is a
valid input ticker, but `get_yf_ticker "NIFTY50" = "^NSEI"` while
`get_yf_ticker "^NSEI" = "^NSEI.NS"` — normalization is not idempotent at
the index alias. -/
theorem C6_normalize_counterexample :
    get_yf_ticker (get_yf_ticker "NIFTY50") ≠ get_yf_ticker "NIFTY50" := by
  decide

/-- C6 (amended): the normalizer is idempotent for every input ticker
except those whose canonical (uppercased, `.NS`-stripped) form is the
index alias `NIFTY50` itself, or still contains a `.NS` occurrence after
the single replace pass (e.g. `"A..NSNS"`). -/
theorem C6_normalize_idempotent (x : String) (h1 : canon x ≠ "NIFTY50")
    (h2 : hasNS (canon x).data = false) :
    get_yf_ticker (get_yf_ticker x) = get_yf_ticker x := by
  have hcanon := canon_get_yf_ticker x h1 h2
  rw [get_yf_ticker_eq (get_yf_ticker x), hcanon, if_neg h1, get_yf_ticker_eq x,
    if_neg h1]

/-- Witness for C6 (amended) at a concrete input: `"tcs.ns"` satisfies
both side conditions and normalizes idempotently (to `"TCS.NS"`). -/
theorem C6_normalize_idempotent_witness :
    canon "tcs.ns" ≠ "NIFTY50" ∧ hasNS (canon "tcs.ns").data = false ∧
    get_yf_ticker (get_yf_ticker "tcs.ns") = get_yf_ticker "tcs.ns" :=
  ⟨by decide, by decide, C6_normalize_idempotent "tcs.ns" (by decide) (by decide)⟩

/-- C7: `fetch_single_price t` is exactly `fetch_bulk_prices [t]`
projected to `t`'s canonical key, and it is absent (`None`) exactly when
neither live data (the future completed and the fetch produced a quote)
nor fallback data (a prior cache entry or a static-table entry for the
canonical key) exists. -/
theorem C7_single_is_projected_bulk (t : String) (u : String → HistOutcome)
    (done : String → Bool) (now : Nat) (st : CacheState) :
    fetch_single_price t u done now st
      = (fetch_bulk_prices [t] u done now st).result.find (canon t) ∧
    (fetch_single_price t u done now st = none ↔
      ((done t = false ∨ fetch_single now u t = none) ∧
        st.cache.find (canon t) = none ∧ fallback_table (canon t) = none)) := by
  constructor
  · rfl
  · unfold fetch_single_price
    rw [fetch_single_eq_fetchSingleC]
    by_cases hc : (is_cache_valid st.timestamp now
        && [t].all (fun t' => (st.cache.find (canon t')).isSome)) = true
    · rw [fetch_bulk_pos [t] u done now st hc]
      have hsome : (st.cache.find (canon t)).isSome = true := by
        rw [Bool.and_eq_true, List.all_eq_true] at hc
        exact hc.2 t (List.mem_singleton_self t)
      rw [writeFold_find,
        show ([t].any fun t' => canon t' == canon t) = true from by simp, hsome]
      rcases Option.isSome_iff_exists.mp hsome with ⟨q, hq⟩
      rw [hq]
      simp
    · rw [fetch_bulk_neg [t] u done now st hc]
      cases hdone : done t with
      | false =>
        have hproc : [t].filter done = ([] : List String) := by
          simp [hdone]
        rw [hproc,
          show writeFold (fetchSingleC now u) [] ([] : List String) = [] from rfl,
          show writeFold (fetchSingleC now u) st.cache ([] : List String) = st.cache from rfl,
          show [t].filter (fun t' => (PriceMap.find ([] : PriceMap) (canon t')).isNone) = [t] from by
            simp [PriceMap.find],
          PriceMap.find_append,
          show PriceMap.find ([] : PriceMap) (canon t) = none from rfl, Option.none_or]
        unfold get_fallback_prices
        rw [writeFold_find,
          show ([t].any fun t' => canon t' == canon t) = true from by simp]
        unfold fallbackVal
        cases hcc : st.cache.find (canon t) with
        | some q => simp
        | none =>
          cases htb : fallback_table (canon t) with
          | none => simp [PriceMap.find]
          | some p => simp
      | true =>
        have hproc : [t].filter done = [t] := by
          simp [hdone]
        rw [hproc]
        cases hfc : fetchSingleC now u (canon t) with
        | some q =>
          have hres : (writeFold (fetchSingleC now u) [] [t]).find (canon t) = some q := by
            rw [writeFold_find,
              show ([t].any fun t' => canon t' == canon t) = true from by simp, hfc]
            simp
          rw [PriceMap.find_append, hres]
          simp
        | none =>
          have hres : (writeFold (fetchSingleC now u) [] [t]).find (canon t) = none := by
            rw [writeFold_find, hfc]
            simp [PriceMap.find]
          have hcache1 : (writeFold (fetchSingleC now u) st.cache [t]).find (canon t)
              = st.cache.find (canon t) := by
            rw [writeFold_find, hfc]
            simp
          rw [PriceMap.find_append, hres, Option.none_or,
            show [t].filter (fun t' =>
                ((writeFold (fetchSingleC now u) [] [t]).find (canon t')).isNone) = [t] from by
              simp [List.filter_cons, hres],
            ]
          unfold get_fallback_prices
          rw [writeFold_find,
            show ([t].any fun t' => canon t' == canon t) = true from by simp]
          unfold fallbackVal
          rw [hcache1]
          cases hcc : st.cache.find (canon t) with
          | some q => simp
          | none =>
            cases htb : fallback_table (canon t) with
            | none => simp [PriceMap.find]
            | some p => simp

theorem writeFold_mem_key (f : String → Option Quote) (ts : List String)
    (acc : PriceMap) (p : String × Quote) (hp : p ∈ writeFold f acc ts) :
    (∃ t ∈ ts, p.1 = canon t) ∨ p ∈ acc := by
  induction ts generalizing acc with
  | nil => exact Or.inr hp
  | cons t ts ih =>
    have hstep : writeFold f acc (t :: ts) = writeFold f
        (match f (canon t) with
         | some v => acc.insert (canon t) v
         | none => acc) ts := by
      simp [writeFold, List.foldl_cons]
    rw [hstep] at hp
    rcases ih _ hp with h | h
    · rcases h with ⟨t', ht', hk⟩
      exact Or.inl ⟨t', List.mem_cons_of_mem _ ht', hk⟩
    · cases hf : f (canon t) with
      | none =>
        rw [hf] at h
        exact Or.inr h
      | some v =>
        rw [hf] at h
        unfold PriceMap.insert at h
        rcases List.mem_cons.1 h with h | h
        · subst h
          exact Or.inl ⟨t, List.mem_cons_self t ts, rfl⟩
        · exact Or.inr (List.mem_of_mem_filter h)

/-- C8 (amended): when the upstream history for a ticker contains exactly
one usable close `c`, the snapshot has `previous_close = price`,
`change = 0` and `change_percent = 0` (exactly); when two or more closes
are available, `price` is the most recent close and `previous_close` the
second most recent, each rounded to 2 decimals (the as-stated claim,
without the rounding, fails — see the counterexample). -/
theorem C8_close_selection (now : Nat) (u : String → HistOutcome) (t : String)
    (closes : List ℚ) (h : u (get_yf_ticker t) = HistOutcome.ok closes) :
    (∀ c : ℚ, closes = [c] → ∃ q : Quote, fetch_single now u t = some q ∧
      q.previous_close = q.price ∧ q.change = 0 ∧ q.change_percent = 0) ∧
    (2 ≤ closes.length → ∃ q : Quote, fetch_single now u t = some q ∧
      q.price = round2 (closes.getLast?.getD 0) ∧
      q.previous_close = round2 (closes.dropLast.getLast?.getD 0)) := by
  have hu : u (if canon t = "NIFTY50" then "^NSEI" else canon t ++ ".NS")
      = HistOutcome.ok closes := by
    rw [← get_yf_ticker_eq]
    exact h
  constructor
  · rintro c rfl
    have hq : fetch_single now u t = some (Quote.mk (canon t) (round2 c)
        (round2 (c - c)) (round2 (if c = 0 then 0 else (c - c) / c * 100))
        (round2 c) now "live") := by
      rw [fetch_single_eq_fetchSingleC]
      simp only [fetchSingleC]
      rw [hu]
      rfl
    refine ⟨_, hq, rfl, ?_, ?_⟩
    · rw [show c - c = 0 by ring, round2_zero]
    · by_cases hc0 : c = 0
      · rw [if_pos hc0, round2_zero]
      · rw [if_neg hc0, show (c - c) / c * 100 = 0 by field_simp, round2_zero]
  · intro hlen
    cases hl : closes.getLast? with
    | none =>
      rw [List.getLast?_eq_none_iff] at hl
      subst hl
      simp at hlen
    | some cur =>
      have hd : closes.dropLast ≠ [] := by
        intro hnil
        have hlen2 := congrArg List.length hnil
        rw [List.length_dropLast] at hlen2
        simp only [List.length_nil] at hlen2
        omega
      obtain ⟨pc, hpc⟩ : ∃ pc, closes.dropLast.getLast? = some pc := by
        cases hx : closes.dropLast.getLast? with
        | none => exact absurd (List.getLast?_eq_none_iff.mp hx) hd
        | some pc => exact ⟨pc, rfl⟩
      have hstep : fetchSingleC now u (canon t) = (match closes.getLast? with
          | none => none
          | some current => some (Quote.mk (canon t) (round2 current)
              (round2 (current - closes.dropLast.getLast?.getD current))
              (round2 (if closes.dropLast.getLast?.getD current = 0 then 0
                else (current - closes.dropLast.getLast?.getD current)
                  / closes.dropLast.getLast?.getD current * 100))
              (round2 (closes.dropLast.getLast?.getD current)) now "live")) := by
        simp only [fetchSingleC]
        rw [hu]
      have hq : fetch_single now u t = some (Quote.mk (canon t) (round2 cur)
          (round2 (cur - pc)) (round2 (if pc = 0 then 0 else (cur - pc) / pc * 100))
          (round2 pc) now "live") := by
        rw [fetch_single_eq_fetchSingleC, hstep, hl, hpc]
        rfl
      refine ⟨_, hq, ?_, ?_⟩
      · rfl
      · rw [hpc]
        rfl

/-- Counterexample to C8 as stated: with closes `[1, 2.346]` the stored
price is `round(2.346, 2) = 2.35`, not the most recent close `2.346`
itself. -/
theorem C8_counterexample :
    (fetch_single 0 upstreamFract "TCS").map Quote.price = some (47/20) ∧
    (47/20 : ℚ) ≠ 2346/1000 := by
  constructor
  · have h : (fetch_single 0 upstreamFract "TCS").map Quote.price
        = some (round2 (2346/1000)) := rfl
    rw [h, Option.some.injEq, round2, round_eq]
    norm_num
  · norm_num

/-- Witness for C8 (amended) at a concrete input: a single close of `80`
yields `previous_close = price`, `change = 0`, `change_percent = 0`. -/
theorem C8_close_selection_witness :
    upstreamOne (get_yf_ticker "TCS") = HistOutcome.ok [80] ∧
    (∃ q : Quote, fetch_single 7 upstreamOne "TCS" = some q ∧
      q.previous_close = q.price ∧ q.change = 0 ∧ q.change_percent = 0) :=
  ⟨rfl, (C8_close_selection 7 upstreamOne "TCS" [80] rfl).1 80 rfl⟩

/-- C9: the history operation returns `None` exactly when the single
upstream download raises, exceeds the timeout, or returns an empty frame;
otherwise it returns the fetched non-empty series unchanged.  It never
raises to the caller: every error path of the source is a `return None`,
and the embedding is total. -/
theorem C9_history_none_iff (dl : String → String → DlOutcome) (t p : String) :
    (fetch_history_with_timeout dl t p = none ↔
      (dl (get_yf_ticker t) p = DlOutcome.err ∨
        dl (get_yf_ticker t) p = DlOutcome.timedOut ∨
        dl (get_yf_ticker t) p = DlOutcome.ok [])) ∧
    (∀ rows, fetch_history_with_timeout dl t p = some rows →
      rows ≠ [] ∧ dl (get_yf_ticker t) p = DlOutcome.ok rows) := by
  simp only [fetch_history_with_timeout]
  cases hdl : dl (get_yf_ticker t) p with
  | err => simp
  | timedOut => simp
  | ok rows =>
    cases rows with
    | nil => simp
    | cons a rs => simp

/-- Witness for C9 at a concrete input: an erroring download yields
`None`. -/
theorem C9_history_none_iff_witness :
    fetch_history_with_timeout dlErr "TCS" "3mo" = none :=
  (C9_history_none_iff dlErr "TCS" "3mo").1.mpr (Or.inl rfl)

/-- C10 (implicit): every key of the mapping returned by
`fetch_bulk_prices`, and every cache key whose binding the call changed,
is the canonical form — uppercased, with every `.NS` occurrence
removed — of some requested ticker; in particular a caller passing
`"tcs.ns"` finds its quote under `"TCS"`. -/
theorem C10_canonical_keys (tickers : List String) (u : String → HistOutcome)
    (done : String → Bool) (now : Nat) (st : CacheState) :
    (∀ k q, (fetch_bulk_prices tickers u done now st).result.find k = some q →
      ∃ t ∈ tickers, k = canon t) ∧
    (∀ k, (fetch_bulk_prices tickers u done now st).state.cache.find k
        ≠ st.cache.find k → ∃ t ∈ tickers, k = canon t) ∧
    canon "tcs.ns" = "TCS" := by
  refine ⟨?_, ?_, by decide⟩
  · intro k q hfind
    by_cases hc : (is_cache_valid st.timestamp now
        && tickers.all (fun t => (st.cache.find (canon t)).isSome)) = true
    · rw [fetch_bulk_pos tickers u done now st hc] at hfind
      have hmem := PriceMap.mem_of_find _ _ _ hfind
      rcases writeFold_mem_key _ _ _ _ hmem with h | h
      · exact h
      · cases h
    · rw [fetch_bulk_neg tickers u done now st hc] at hfind
      have hmem := PriceMap.mem_of_find _ _ _ hfind
      rcases List.mem_append.mp hmem with h | h
      · rcases writeFold_mem_key _ _ _ _ h with h2 | h2
        · rcases h2 with ⟨t, ht, hk⟩
          exact ⟨t, List.mem_of_mem_filter ht, hk⟩
        · cases h2
      · unfold get_fallback_prices at h
        rcases writeFold_mem_key _ _ _ _ h with h2 | h2
        · rcases h2 with ⟨t, ht, hk⟩
          exact ⟨t, List.mem_of_mem_filter ht, hk⟩
        · cases h2
  · intro k hne
    by_cases hc : (is_cache_valid st.timestamp now
        && tickers.all (fun t => (st.cache.find (canon t)).isSome)) = true
    · have hstate : (fetch_bulk_prices tickers u done now st).state = st := by
        rw [fetch_bulk_pos tickers u done now st hc]
      rw [hstate] at hne
      exact absurd rfl hne
    · have hstate : (fetch_bulk_prices tickers u done now st).state.cache
          = writeFold (fetchSingleC now u) st.cache (tickers.filter done) := by
        rw [fetch_bulk_neg tickers u done now st hc]
      rw [hstate, writeFold_find] at hne
      by_cases hcond : (((tickers.filter done).any fun t => canon t == k)
          && (fetchSingleC now u k).isSome) = true
      · rw [Bool.and_eq_true] at hcond
        rcases List.any_eq_true.mp hcond.1 with ⟨t, ht, hbeq⟩
        have hk : canon t = k := by simpa using hbeq
        exact ⟨t, List.mem_of_mem_filter ht, hk.symm⟩
      · rw [if_neg hcond] at hne
        exact absurd rfl hne

/-- Witness for C10 at a concrete input: the caller passes `"tcs.ns"` and
the returned key is its canonical form `"TCS"`. -/
theorem C10_canonical_keys_witness :
    ∃ t ∈ ["tcs.ns"], "TCS" = canon t :=
  (C10_canonical_keys ["tcs.ns"] upstreamErr doneAll 100 staleState).1
    "TCS" staleQuote (by decide)
